import Mathlib

/-!
Shallow embedding of `formula-parser/src/lib.rs` (`parse_formula` and its
helpers).  The program reads a Homebrew-style formula script, derives a Ruby
class name from the file stem, filters the script down to metadata lines,
evaluates those lines inside an embedded Ruby interpreter against a capture
scaffold, and assembles a `Formula` record from the captured values.

Modelling conventions:
 * Strings are modelled as `String`; the line-level machinery works over
   `List Char` (a `String`'s `data`), which mirrors Rust's per-`char`
   iteration and keeps induction simple.
 * Rust's `str::lines` (split at `\x7bLF\x7d`, strip one trailing CR from each
   LF-terminated piece, drop a final empty piece) is modelled exactly by
   `rustLines`.
 * Rust's `str::trim` (Unicode `White_Space`) is modelled by `trimRust`
   over the full fixed `White_Space` character set.
 * `char::to_uppercase` is modelled by `Char.toUpper`, which agrees with
   Rust on ASCII; every input appearing in the claims is ASCII, and no
   settled claim depends on non-ASCII case mapping.
 * The embedded Ruby interpreter is modelled only on the fragment the
   capture scaffold is designed for: a class-body line that is a keyword
   (`desc`, `homepage`, `url`, `sha256`) followed by one bare quoted string
   literal — free of double quote, backslash and hash, so that no Ruby
   escape sequence or `#`-interpolation can make the stored value differ
   from the written text — updates the capture store (the scaffold's
   `@@formulas` hash, keyed by class name, reset to empty at the start of
   every evaluation, exactly as the scaffold's reopened `class Formula`
   body does).  A retained line outside this fragment is modelled as an
   evaluation error (the model's fragment boundary); no settled claim
   depends on the behaviour of such lines.
 * The synthesis of `class <name> < Formula` itself can fail before any
   class-body line runs: when the derived name is not a valid Ruby
   constant (modelled over the ASCII constant grammar, consistent with
   the ASCII uppercase model), the whole inspector code is a SyntaxError
   and nothing runs, so the capture store is left untouched; when the
   name is a constant already bound at the interpreter's toplevel (Ruby
   core, the scaffold's `Formula` and `OpenStruct`, modelled by an
   explicit table), the reopened `class Formula` body has already reset
   the store when the class line raises a superclass-mismatch error.
   Both failures surface as returned `Err`, exactly as `ruby.eval(..)?`
   propagates a magnus error.
 * Rust panics (`panic!`, `.expect`) are modelled as a distinguished
   `ParseOutcome.panicked` outcome, separate from returned errors.
-/

/-- The output record, Rust `struct Formula`. -/
structure Formula where
  name : String
  description : Option String
  homepage : Option String
  url : Option String
  sha256 : Option String
  dependencies : List String
deriving DecidableEq, Repr

/-- The four capture-scaffold field names. -/
inductive FieldKey where
  | desc
  | homepage
  | url
  | sha256
deriving DecidableEq, Repr

/-- One entry of the scaffold's per-class capture hash. -/
structure Captured where
  desc : Option String
  homepage : Option String
  url : Option String
  sha256 : Option String
deriving DecidableEq, Repr

/-- The scaffold's `@@formulas` hash: class name to captured fields. -/
def RubyState : Type := List (String × Captured)

instance : DecidableEq RubyState := by
  unfold RubyState
  infer_instance

/-- Outcome of a call to `parse_formula`: a returned `Ok`, a returned
`Err` (magnus error, carrying a diagnostic string), or a Rust panic. -/
inductive ParseOutcome where
  | ok (f : Formula)
  | err (msg : String)
  | panicked (msg : String)
deriving DecidableEq, Repr

/-- The empty string (named so that string literals appear only after
an assignment token). -/
def emptyStr : String := ""

/-- Rust `panic!` message at the empty-class-name check. -/
def panicClassMsg : String := "Could not determine class name from file path."

/-- Rust `.expect` message on the file read. -/
def panicReadMsg : String := "Could not read formula file."

/-- Diagnostic tag for the modelled Ruby-initialisation failure. -/
def rubyInitErrMsg : String := "ruby init error"

/-- Diagnostic tag for the modelled evaluation failure on a retained line
outside the bare-literal fragment. -/
def evalErrMsg : String := "eval error"

/-- Diagnostic tag for the interpreter's SyntaxError when the derived
class name is not a valid Ruby constant (e.g. the name `2ps`): the whole
inspector code fails to parse and nothing runs. -/
def rubySyntaxErrMsg : String := "syntax error: class name is not a constant"

/-- Diagnostic tag for the interpreter's superclass-mismatch TypeError
when the derived class name is a constant already bound at toplevel to
something that is not a subclass of the scaffold's `Formula`. -/
def rubyMismatchErrMsg : String := "superclass mismatch for reopened constant"

/-- The dash character, Rust `split('-')`'s separator. -/
def dashC : Char := '-'

/-- The line-feed character. -/
def nlC : Char := '\n'

/-- The carriage-return character. -/
def crC : Char := '\r'

/-- The double-quote character. -/
def quoteC : Char := '"'

/-- The backslash character (a Ruby string escape introducer, outside the
modelled literal fragment). -/
def backslashC : Char := '\\'

/-- The hash character (the Ruby string-interpolation introducer, outside
the modelled literal fragment: in a double-quoted Ruby string `#` can
start an interpolation whose stored value differs from the written
text and can even execute code). -/
def hashC : Char := '#'

/-- Keyword-plus-space `desc ` checked by the filter and the decl parser. -/
def descDeclL : List Char := ['d', 'e', 's', 'c', ' ']

/-- Keyword-plus-space `homepage `. -/
def homepageDeclL : List Char := ['h', 'o', 'm', 'e', 'p', 'a', 'g', 'e', ' ']

/-- Keyword-plus-space `url `. -/
def urlDeclL : List Char := ['u', 'r', 'l', ' ']

/-- Keyword-plus-space `sha256 `. -/
def shaDeclL : List Char := ['s', 'h', 'a', '2', '5', '6', ' ']

/-- The filter's sha256 test string: `sha256 ` followed by a double quote. -/
def shaQuoteDeclL : List Char := shaDeclL ++ [quoteC]

/-- Rust `char::is_whitespace`: the Unicode `White_Space` property
(a fixed character set). -/
def rustIsWhitespace (c : Char) : Bool :=
  c == ' ' || c == '\t' || c == '\n' || c == '\u000B' || c == '\u000C' ||
  c == '\r' || c == '\u0085' || c == '\u00A0' || c == '\u1680' ||
  c == '\u2000' || c == '\u2001' || c == '\u2002' || c == '\u2003' ||
  c == '\u2004' || c == '\u2005' || c == '\u2006' || c == '\u2007' ||
  c == '\u2008' || c == '\u2009' || c == '\u200A' || c == '\u2028' ||
  c == '\u2029' || c == '\u202F' || c == '\u205F' || c == '\u3000'

/-- Rust `str::trim` on a character list: drop whitespace from both ends. -/
def trimRust (l : List Char) : List Char :=
  ((l.dropWhile rustIsWhitespace).reverse.dropWhile rustIsWhitespace).reverse

/-- `leadsWith p l` holds when `p` is an initial segment of `l`
(Rust `str::starts_with`). -/
def leadsWith : List Char → List Char → Bool
  | [], _ => true
  | _ :: _, [] => false
  | p :: ps, c :: cs => p == c && leadsWith ps cs

/-- Prepend a character to the first piece of a split (the
in-progress piece), starting a fresh piece when none exists. -/
def consHead (c : Char) : List (List Char) → List (List Char)
  | [] => [[c]]
  | p :: ps => (c :: p) :: ps

/-- Rust `str::split(sep)`: split at every occurrence of `sep`, keeping
empty pieces (the result is never the empty list). -/
def splitOnC (sep : Char) : List Char → List (List Char)
  | [] => [[]]
  | c :: rest =>
    if c = sep then [] :: splitOnC sep rest
    else consHead c (splitOnC sep rest)

/-- Strip a leading carriage return from a reversed line. -/
def stripCRrev : List Char → List Char
  | c :: rest => if c = crC then rest else c :: rest
  | [] => []

/-- Strip one trailing carriage return, Rust `strip_suffix(CR)` fallback
to the line itself. -/
def stripCR (l : List Char) : List Char :=
  (stripCRrev l.reverse).reverse

/-- Assemble Rust `str::lines` from the LF-split pieces: every piece but
the last was LF-terminated, so one trailing CR is stripped from it; the
final piece is dropped when empty (optional final line ending) and kept
verbatim otherwise. -/
def rustLinesPieces : List (List Char) → List (List Char)
  | [] => []
  | [last] => if last = [] then [] else [last]
  | p :: q :: rest => stripCR p :: rustLinesPieces (q :: rest)

/-- Rust `str::lines` on a character list. -/
def rustLinesL (s : List Char) : List (List Char) :=
  rustLinesPieces (splitOnC nlC s)

/-- The metadata line filter's per-line test, from the source: the trimmed
line starts with `desc `, `homepage `, `url `, or `sha256 ` followed by a
double quote. -/
def keepLineL (l : List Char) : Bool :=
  let trimmed := trimRust l
  leadsWith descDeclL trimmed || leadsWith homepageDeclL trimmed ||
  leadsWith urlDeclL trimmed || leadsWith shaQuoteDeclL trimmed

/-- Join with single LFs, Rust `Vec::join("\n")` restricted to the
line lists produced here. -/
def intercalateNl : List (List Char) → List Char
  | [] => []
  | [l] => l
  | l :: l2 :: rest => l ++ nlC :: intercalateNl (l2 :: rest)

/-- The `extracted_metadata` computation of `parse_formula`: keep the
filter-passing lines of the source text and join them with LFs. -/
def filterMetadataL (s : List Char) : List Char :=
  intercalateNl ((rustLinesL s).filter keepLineL)

/-- String-level wrapper of the metadata line filter. -/
def filterMetadata (s : String) : String :=
  String.mk (filterMetadataL s.data)

/-- Rust `char::to_uppercase` of the stem's segment-initial character,
modelled by `Char.toUpper` (exact on ASCII). -/
def rustToUppercase (c : Char) : List Char :=
  [c.toUpper]

/-- One closure application inside the `class_name` computation: uppercase
the first character of a `-`-separated segment, keep the rest verbatim. -/
def capitalizePart (part : List Char) : List Char :=
  match part with
  | [] => []
  | f :: rest => rustToUppercase f ++ rest

/-- The `class_name` computation of `parse_formula` on the stem's
characters: split on `-`, capitalize each segment, concatenate. -/
def classNameOfL (stem : List Char) : List Char :=
  ((splitOnC dashC stem).map capitalizePart).flatten

/-- An ASCII uppercase letter, the required first character of a Ruby
constant name. -/
def rubyConstHeadChar (c : Char) : Bool :=
  'A' ≤ c && c ≤ 'Z'

/-- An ASCII identifier continuation character (letter, digit or
underscore). -/
def rubyIdentChar (c : Char) : Bool :=
  ('A' ≤ c && c ≤ 'Z') || ('a' ≤ c && c ≤ 'z') ||
  ('0' ≤ c && c ≤ '9') || c == '_'

/-- Whether a derived class name is a valid Ruby constant name, so that
`class <name> < Formula` parses at all (modelled over the ASCII constant
grammar: an uppercase letter followed by letters, digits or underscores;
consistent with the ASCII model of uppercasing).  The name `2ps`,
derived from the stem `2ps`, fails this test and the interpreter raises
a SyntaxError for the whole inspector code. -/
def validRubyConst : List Char → Bool
  | [] => false
  | c :: rest => rubyConstHeadChar c && rest.all rubyIdentChar

/-- Constants bound at the embedded interpreter's toplevel before any
formula is parsed: Ruby core and standard toplevel constants, rubygems'
`Gem`, the `OpenStruct` required by the scaffold, and the scaffold's own
`Formula`.  Synthesizing `class <name> < Formula` for one of these
raises a superclass-mismatch TypeError (the bound value is not a class
with superclass `Formula`), so the evaluation returns an error; a name
outside this table either defines a fresh class or reopens a class a
previous parse defined (a `Formula` subclass), which succeeds.  The
table deliberately over-approximates: listing a name a particular
interpreter build happens not to define only narrows the modelled
fragment, never misstates a success. -/
def rubyPredefinedConsts : List String :=
  ["ARGF", "ARGV", "ArgumentError", "Array", "BasicObject", "Binding",
   "Bundler", "Class", "ClosedQueueError", "Comparable", "Complex",
   "ConditionVariable", "Continuation", "Coverage", "Data", "DidYouMean",
   "Dir", "ENV", "EOFError", "Encoding", "EncodingError", "Enumerable",
   "Enumerator", "Errno", "ErrorHighlight", "Exception", "FalseClass",
   "Fcntl", "Fiber", "FiberError", "File", "FileTest", "FileUtils",
   "Float", "FloatDomainError", "FrozenError", "GC", "Gem", "Hash", "IO",
   "IOError", "IndexError", "Integer", "Interrupt", "Kernel", "KeyError",
   "LoadError", "LocalJumpError", "Marshal", "MatchData", "Math",
   "Method", "Module", "Monitor", "MonitorMixin", "Mutex", "NameError",
   "NilClass", "NoMatchingPatternError", "NoMatchingPatternKeyError",
   "NoMemoryError", "NoMethodError", "NotImplementedError", "Numeric",
   "Object", "ObjectSpace", "OpenStruct", "Proc", "Process", "Queue",
   "Ractor", "Random", "Range", "RangeError", "Rational", "RbConfig",
   "Readline", "Regexp", "RegexpError", "RubyVM", "RuntimeError",
   "ScriptError", "SecurityError", "Set", "Signal", "SignalException",
   "SizedQueue", "StandardError", "StopIteration", "String", "StringIO",
   "StringScanner", "Struct", "Symbol", "SyntaxError", "SystemCallError",
   "SystemExit", "SystemStackError", "Thread", "ThreadError",
   "ThreadGroup", "Time", "TracePoint", "TrueClass", "TypeError",
   "UnboundMethod", "UncaughtThrowError", "UnicodeNormalize", "Warning",
   "ZeroDivisionError", "RUBY_COPYRIGHT", "RUBY_DESCRIPTION",
   "RUBY_ENGINE", "RUBY_ENGINE_VERSION", "RUBY_PATCHLEVEL",
   "RUBY_PLATFORM", "RUBY_RELEASE_DATE", "RUBY_REVISION", "RUBY_VERSION",
   "STDERR", "STDIN", "STDOUT", "TOPLEVEL_BINDING", "Formula"]

/-- String-level class-name derivation. -/
def classNameOf (stem : String) : String :=
  String.mk (classNameOfL stem.data)

/-- Parse a bare quoted string literal that ends the line: an opening
double quote, characters free of double quote, backslash and hash, a
closing double quote, nothing after.  The backslash and hash exclusions
keep Ruby escape sequences and `#`-interpolation — under which the stored
value can differ from the written characters — outside the modelled
fragment; lines outside this shape are outside the modelled Ruby
fragment. -/
def parseQuoted (l : List Char) : Option (List Char) :=
  match l with
  | c :: rest =>
    if c = quoteC then
      let v := rest.takeWhile (fun d => !(d == quoteC))
      if rest.drop v.length = [quoteC] ∧ ¬backslashC ∈ v ∧ ¬hashC ∈ v then
        some v
      else none
    else none
  | [] => none

/-- Keyword dispatch of the modelled Ruby line parse, on the already
trimmed line. -/
def parseDeclAfterTrim (t : List Char) : Option (FieldKey × String) :=
  if leadsWith descDeclL t then
    (parseQuoted (t.drop descDeclL.length)).map
      (fun v => (FieldKey.desc, String.mk v))
  else if leadsWith homepageDeclL t then
    (parseQuoted (t.drop homepageDeclL.length)).map
      (fun v => (FieldKey.homepage, String.mk v))
  else if leadsWith urlDeclL t then
    (parseQuoted (t.drop urlDeclL.length)).map
      (fun v => (FieldKey.url, String.mk v))
  else if leadsWith shaDeclL t then
    (parseQuoted (t.drop shaDeclL.length)).map
      (fun v => (FieldKey.sha256, String.mk v))
  else none

/-- Modelled Ruby parse of one class-body line in the literal fragment:
an optionally indented keyword among the four capture fields followed by
one bare quoted string literal.  `none` means the line falls outside the
modelled fragment. -/
def parseDeclLine (l : List Char) : Option (FieldKey × String) :=
  parseDeclAfterTrim (trimRust l)

/-- An all-absent capture entry, the scaffold's `||= \x7b\x7d` default. -/
def emptyCaptured : Captured :=
  { desc := none, homepage := none, url := none, sha256 := none }

/-- Store one captured field into a capture entry. -/
def setField (c : Captured) (f : FieldKey) (v : String) : Captured :=
  match f with
  | FieldKey.desc => { c with desc := some v }
  | FieldKey.homepage => { c with homepage := some v }
  | FieldKey.url => { c with url := some v }
  | FieldKey.sha256 => { c with sha256 := some v }

/-- The scaffold setter: `@@formulas[self.name] ||= \x7b\x7d` followed by
storing the value under the field key (hash upsert by class name). -/
def storeSet : RubyState → String → FieldKey → String → RubyState
  | [], key, f, v => [(key, setField emptyCaptured f v)]
  | (k, c) :: rest, key, f, v =>
    if k = key then (k, setField c f v) :: rest
    else (k, c) :: storeSet rest key f v

/-- The scaffold getter: `@@formulas[self.name]&.dig(field)`, an absent
class entry reading as all-absent fields. -/
def storeGet : RubyState → String → Captured
  | [], _ => emptyCaptured
  | (k, c) :: rest, key => if k = key then c else storeGet rest key

/-- The class-body lines the interpreter receives: exactly the
filter-retained lines of the file content (the `metadata_lines` vector). -/
def classBodyLines (content : String) : List (List Char) :=
  (rustLinesL content.data).filter keepLineL

/-- Modelled evaluation of the synthesized class body: each line in the
literal fragment stores its value under the class name; a line outside
the fragment aborts evaluation with an error, returning the store reached
so far. -/
def evalLines (cls : String) : RubyState → List (List Char) →
    Option String × RubyState
  | st, [] => (none, st)
  | st, l :: ls =>
    match parseDeclLine l with
    | some fv => evalLines cls (storeSet st cls fv.1 fv.2) ls
    | none => (some evalErrMsg, st)

/-- Shallow embedding of `parse_formula`.

Inputs stand for the call's environment: `stemOpt` is
`path.file_stem().and_then(to_str)` (`none` when the path has no stem or
the stem is not UTF-8), `rubyInit` is whether `Ruby::get()` succeeds,
`file` is the result of `fs::read_to_string(path)`, and `st` is the
interpreter's capture store as the call begins (the scaffold resets it at
the start of every evaluation, as the reopened `class Formula` body runs
`@@formulas = \x7b\x7d`).  The returned pair is the call's outcome and
the capture store it leaves behind. -/
def fileStemOf (stemOpt : Option String) : String :=
  stemOpt.getD emptyStr

/-- Steps 4-5 of `parse_formula` once the file content is in hand:
evaluate the synthesized `class <name> < Formula` inspector code.  When
the derived name is not a valid Ruby constant the whole code is a
SyntaxError — nothing runs and the capture store is untouched.  When the
name is a predefined toplevel constant, the reopened `class Formula` body
has already reset the store when the class line raises a
superclass-mismatch error.  Otherwise the class body runs against the
freshly reset store, the four accessors are read off it, and the record
is assembled; any evaluation error is returned as `Err` (via the `?` on
`ruby.eval`). -/
def parse_afterRead (file_stem : String) (content : String)
    (st : RubyState) : ParseOutcome × RubyState :=
  if validRubyConst (classNameOfL file_stem.data) = false then
    (ParseOutcome.err rubySyntaxErrMsg, st)
  else if rubyPredefinedConsts.contains
      (String.mk (classNameOfL file_stem.data)) = true then
    (ParseOutcome.err rubyMismatchErrMsg, [])
  else
    match evalLines (String.mk (classNameOfL file_stem.data)) []
        (classBodyLines content) with
    | (some m, st2) => (ParseOutcome.err m, st2)
    | (none, st2) =>
      let cap := storeGet st2 (String.mk (classNameOfL file_stem.data))
      (ParseOutcome.ok
        { name := file_stem, description := cap.desc,
          homepage := cap.homepage, url := cap.url,
          sha256 := cap.sha256, dependencies := [] }, st2)

/-- Step 3 of `parse_formula`: `fs::read_to_string(path).expect(..)` —
a read failure is a panic, a successful read continues. -/
def parse_readFile (file_stem : String) (file : Except String String)
    (st : RubyState) : ParseOutcome × RubyState :=
  match file with
  | Except.error _ => (ParseOutcome.panicked panicReadMsg, st)
  | Except.ok content => parse_afterRead file_stem content st

def parse_formula (stemOpt : Option String) (rubyInit : Bool)
    (file : Except String String) (st : RubyState) :
    ParseOutcome × RubyState :=
  if classNameOfL (fileStemOf stemOpt).data = [] then
    (ParseOutcome.panicked panicClassMsg, st)
  else if rubyInit = false then (ParseOutcome.err rubyInitErrMsg, st)
  else parse_readFile (fileStemOf stemOpt) file st

/-- Modelled from the spec: the "safe declarative statement" shape the spec's
MetadataLineFilter and CaptureEnvironment sections describe (a declaration
keyword followed by a single bare quoted-string argument, which the capture
scaffold only records).  Used to compare the filter's actual acceptance
against the spec's safety reading. -/
def specSafeDeclarationShape (l : List Char) : Bool :=
  (parseDeclLine l).isSome

def exSha1S : String := "sha256 \"deadbeef\""

def exSha2S : String := "sha256 cellar: :any, some_key: \"deadbeef\""

def exStemA2ps : String := "a2ps"

def exClassA2ps : String := "A2ps"

def exStemLibPng : String := "lib-png"

def exClassLibPng : String := "LibPng"

def exStemLibPng2 : String := "Lib-png"

def crExampleS : String := "desc a\r\r\ndesc b"

def crFreeExampleS : String := "desc \"a\"\nclass junk\nurl \"u\""

def shelloutLineS : String := "desc `rm -rf /`"

def exC2ContentS : String := "desc \"x\"\nsystem \"rm -rf installdir\""

def exC2LineS : String := "desc \"x\""

def ioDeniedS : String := "permission denied"

def dashOnlyStem : String := "---"

def exC8c1S : String := "desc \"alpha\""

def exC8c2S : String := "desc \"beta\""

def poisonS : String := "poisoned"

def exPoisonState : RubyState :=
  [(exClassLibPng,
    { desc := some poisonS, homepage := none, url := none, sha256 := none })]

theorem consHead_ne_nil (c : Char) (ps : List (List Char)) :
    consHead c ps ≠ [] := by
  cases ps <;> simp [consHead]

theorem splitOnC_ne_nil (sep : Char) (l : List Char) : splitOnC sep l ≠ [] := by
  induction l with
  | nil => simp [splitOnC]
  | cons c rest ih =>
    by_cases h : c = sep
    · simp [splitOnC, h]
    · simp only [splitOnC, if_neg h]
      exact consHead_ne_nil c (splitOnC sep rest)

theorem sep_not_mem_of_mem_splitOnC {sep : Char} {l p : List Char}
    (hp : p ∈ splitOnC sep l) : sep ∉ p := by
  induction l generalizing p with
  | nil =>
    simp [splitOnC] at hp
    subst hp
    simp
  | cons c rest ih =>
    by_cases h : c = sep
    · simp only [splitOnC, if_pos h, List.mem_cons] at hp
      rcases hp with hp | hp
      · subst hp; simp
      · exact ih hp
    · simp only [splitOnC, if_neg h] at hp
      cases hs : splitOnC sep rest with
      | nil => exact absurd hs (splitOnC_ne_nil sep rest)
      | cons q qs =>
        rw [hs] at hp
        simp only [consHead, List.mem_cons] at hp
        rcases hp with hp | hp
        · subst hp
          intro hmem
          rcases List.mem_cons.mp hmem with hc | hq
          · exact h hc.symm
          · exact ih (hs ▸ List.mem_cons_self q qs) hq
        · exact ih (hs ▸ List.mem_cons_of_mem q hp)

theorem mem_of_mem_splitOnC {sep c : Char} {l p : List Char}
    (hp : p ∈ splitOnC sep l) (hc : c ∈ p) : c ∈ l := by
  induction l generalizing p with
  | nil =>
    simp [splitOnC] at hp
    subst hp
    simp at hc
  | cons a rest ih =>
    by_cases h : a = sep
    · simp only [splitOnC, if_pos h, List.mem_cons] at hp
      rcases hp with hp | hp
      · subst hp; simp at hc
      · exact List.mem_cons_of_mem a (ih hp hc)
    · simp only [splitOnC, if_neg h] at hp
      cases hs : splitOnC sep rest with
      | nil => exact absurd hs (splitOnC_ne_nil sep rest)
      | cons q qs =>
        rw [hs] at hp
        simp only [consHead, List.mem_cons] at hp
        rcases hp with hp | hp
        · subst hp
          rcases List.mem_cons.mp hc with hc | hc
          · exact hc ▸ List.mem_cons_self a rest
          · exact List.mem_cons_of_mem a
              (ih (hs ▸ List.mem_cons_self q qs) hc)
        · exact List.mem_cons_of_mem a
            (ih (hs ▸ List.mem_cons_of_mem q hp) hc)

theorem splitOnC_of_not_mem {sep : Char} {l : List Char} (h : sep ∉ l) :
    splitOnC sep l = [l] := by
  induction l with
  | nil => simp [splitOnC]
  | cons c rest ih =>
    have hc : ¬c = sep := fun he => h (he ▸ List.mem_cons_self c rest)
    have hrest : sep ∉ rest := fun hm => h (List.mem_cons_of_mem c hm)
    simp only [splitOnC, if_neg hc, ih hrest, consHead]

theorem splitOnC_append_cons {sep : Char} {l t : List Char} (h : sep ∉ l) :
    splitOnC sep (l ++ sep :: t) = l :: splitOnC sep t := by
  induction l with
  | nil => simp [splitOnC]
  | cons c rest ih =>
    have hc : ¬c = sep := fun he => h (he ▸ List.mem_cons_self c rest)
    have hrest : sep ∉ rest := fun hm => h (List.mem_cons_of_mem c hm)
    rw [List.cons_append]
    simp only [splitOnC, if_neg hc, ih hrest, consHead]

theorem mem_stripCRrev {l : List Char} {c : Char} (h : c ∈ stripCRrev l) :
    c ∈ l := by
  cases l with
  | nil => simp [stripCRrev] at h
  | cons d rest =>
    by_cases hd : d = crC
    · simp only [stripCRrev, if_pos hd] at h
      exact List.mem_cons_of_mem d h
    · simp only [stripCRrev, if_neg hd] at h
      exact h

theorem mem_of_mem_stripCR {l : List Char} {c : Char} (h : c ∈ stripCR l) :
    c ∈ l := by
  unfold stripCR at h
  exact List.mem_reverse.mp (mem_stripCRrev (List.mem_reverse.mp h))

theorem stripCR_of_not_mem {l : List Char} (h : crC ∉ l) : stripCR l = l := by
  unfold stripCR
  cases hr : l.reverse with
  | nil =>
    have : l = [] := by
      have := congrArg List.reverse hr
      rwa [List.reverse_reverse] at this
    simp [this, stripCRrev]
  | cons d rest =>
    have hd : ¬d = crC := by
      intro he
      apply h
      have hdm : d ∈ l.reverse := by rw [hr]; exact List.mem_cons_self d rest
      exact he ▸ List.mem_reverse.mp hdm
    rw [stripCRrev, if_neg hd, ← hr, List.reverse_reverse]

theorem exists_of_mem_rustLinesPieces {ps : List (List Char)} {p : List Char}
    (h : p ∈ rustLinesPieces ps) : ∃ q ∈ ps, p = stripCR q ∨ p = q := by
  induction ps with
  | nil => simp [rustLinesPieces] at h
  | cons a tail ih =>
    cases tail with
    | nil =>
      by_cases ha : a = []
      · simp [rustLinesPieces, ha] at h
      · simp only [rustLinesPieces, if_neg ha, List.mem_singleton] at h
        exact ⟨a, List.mem_cons_self a [], Or.inr h⟩
    | cons b tail2 =>
      rw [rustLinesPieces, List.mem_cons] at h
      rcases h with h | h
      · exact ⟨a, List.mem_cons_self a (b :: tail2), Or.inl h⟩
      · rcases ih h with ⟨q, hq, hor⟩
        exact ⟨q, List.mem_cons_of_mem a hq, hor⟩

theorem rustLinesPieces_eq_self {ps : List (List Char)}
    (h : ∀ q ∈ ps, stripCR q = q ∧ q ≠ []) : rustLinesPieces ps = ps := by
  induction ps with
  | nil => rfl
  | cons a tail ih =>
    cases tail with
    | nil =>
      have ha := h a (List.mem_cons_self a [])
      simp only [rustLinesPieces, if_neg ha.2]
    | cons b tail2 =>
      have ha := h a (List.mem_cons_self a (b :: tail2))
      rw [rustLinesPieces, ha.1,
        ih (fun q hq => h q (List.mem_cons_of_mem a hq))]

theorem splitOnC_nl_intercalateNl {ls : List (List Char)} (hne : ls ≠ [])
    (hnl : ∀ l ∈ ls, nlC ∉ l) :
    splitOnC nlC (intercalateNl ls) = ls := by
  induction ls with
  | nil => exact absurd rfl hne
  | cons l rest ih =>
    cases rest with
    | nil =>
      rw [intercalateNl]
      exact splitOnC_of_not_mem (hnl l (List.mem_cons_self l []))
    | cons l2 rest2 =>
      rw [intercalateNl,
        splitOnC_append_cons (hnl l (List.mem_cons_self l (l2 :: rest2))),
        ih (by simp) (fun q hq => hnl q (List.mem_cons_of_mem l hq))]

theorem keepLineL_nil : keepLineL [] = false := by decide

theorem ne_nil_of_keepLineL {l : List Char} (h : keepLineL l = true) :
    l ≠ [] := by
  intro he
  rw [he, keepLineL_nil] at h
  exact Bool.false_ne_true h

theorem filterMetadataL_nil : filterMetadataL [] = [] := rfl

theorem filterMetadataL_idem {s : List Char} (h : crC ∉ s) :
    filterMetadataL (filterMetadataL s) = filterMetadataL s := by
  have hkeep : ∀ l ∈ (rustLinesL s).filter keepLineL, keepLineL l = true :=
    fun l hl => List.of_mem_filter hl
  have hmemlines : ∀ l ∈ (rustLinesL s).filter keepLineL, l ∈ rustLinesL s :=
    fun l hl => (List.mem_filter.mp hl).1
  have hsub : ∀ l ∈ (rustLinesL s).filter keepLineL, ∀ c ∈ l, c ∈ s := by
    intro l hl c hc
    obtain ⟨q, hq, hor⟩ := exists_of_mem_rustLinesPieces (hmemlines l hl)
    rcases hor with rfl | rfl
    · exact mem_of_mem_splitOnC hq (mem_of_mem_stripCR hc)
    · exact mem_of_mem_splitOnC hq hc
  have hnl : ∀ l ∈ (rustLinesL s).filter keepLineL, nlC ∉ l := by
    intro l hl hc
    obtain ⟨q, hq, hor⟩ := exists_of_mem_rustLinesPieces (hmemlines l hl)
    have hq2 : nlC ∈ q := by
      rcases hor with rfl | rfl
      · exact mem_of_mem_stripCR hc
      · exact hc
    exact sep_not_mem_of_mem_splitOnC hq hq2
  have hcr : ∀ l ∈ (rustLinesL s).filter keepLineL, crC ∉ l :=
    fun l hl hc => h (hsub l hl crC hc)
  cases hls : (rustLinesL s).filter keepLineL with
  | nil =>
    have hfs : filterMetadataL s = [] := by
      rw [filterMetadataL, hls]
      rfl
    rw [hfs]
    exact filterMetadataL_nil
  | cons l0 rest =>
    have hfs : filterMetadataL s = intercalateNl (l0 :: rest) := by
      rw [filterMetadataL, hls]
    rw [hfs, filterMetadataL, rustLinesL,
      splitOnC_nl_intercalateNl (by simp)
        (fun l hl => hnl l (by rw [hls]; exact hl)),
      rustLinesPieces_eq_self
        (fun q hq => ⟨stripCR_of_not_mem (hcr q (by rw [hls]; exact hq)),
          ne_nil_of_keepLineL (hkeep q (by rw [hls]; exact hq))⟩),
      List.filter_eq_self.mpr
        (fun l hl => hkeep l (by rw [hls]; exact hl))]

theorem capitalizePart_eq_nil_iff {p : List Char} :
    capitalizePart p = [] ↔ p = [] := by
  cases p <;> simp [capitalizePart, rustToUppercase]

theorem parse_fst_state_independent (so : Option String) (ri : Bool)
    (file : Except String String) (st st' : RubyState) :
    (parse_formula so ri file st).1 = (parse_formula so ri file st').1 := by
  by_cases h1 : classNameOfL (fileStemOf so).data = []
  · simp [parse_formula, h1]
  · by_cases h2 : ri = false
    · simp [parse_formula, h1, h2]
    · cases file with
      | error e => simp [parse_formula, parse_readFile, h1, h2]
      | ok content =>
        by_cases hv : validRubyConst (classNameOfL (fileStemOf so).data) =
          false
        · simp [parse_formula, parse_readFile, parse_afterRead, h1, h2, hv]
        · by_cases hp : rubyPredefinedConsts.contains
            (String.mk (classNameOfL (fileStemOf so).data)) = true
          · simp [parse_formula, parse_readFile, parse_afterRead, h1, h2,
              hv, hp]
          · simp [parse_formula, parse_readFile, parse_afterRead, h1, h2,
              hv, hp]

/-- C2 counterexample: the filter retains the line
`desc` followed by a backquoted shell command (its trimmed content starts
with the `desc ` keyword), yet the line is not a safe bare-string
declaration — under Ruby, backquotes execute a shell command, so a
retained line can shell out when evaluated, contradicting the claim. -/
theorem claim_c2_counterexample :
    keepLineL shelloutLineS.data = true ∧
    specSafeDeclarationShape shelloutLineS.data = false := by
  decide

/-- C2 amended: every line handed to the interpreter inside the
synthesized class body passed the metadata filter (only the fixed capture
scaffold plus filter-retained lines reach the interpreter); the filter,
however, is a pure prefix check and does not guarantee that a retained
line is free of side-effecting code. -/
theorem claim_c2_only_filtered_lines_evaluated :
    ∀ (content : String) (l : List Char),
    l ∈ classBodyLines content → keepLineL l = true :=
  fun _ _ h => List.of_mem_filter h

/-- Witness for the amended C2 on a concrete retained line. -/
theorem claim_c2_only_filtered_lines_evaluated_witness :
    keepLineL exC2LineS.data = true :=
  claim_c2_only_filtered_lines_evaluated exC2ContentS exC2LineS.data
    (by decide)

/-- C3: a line of the source is retained by the metadata filter exactly
when its trimmed content starts with `desc `, `homepage `, `url `, or
`sha256 ` followed by a double quote; in particular the plain quoted
sha256 line is retained and the cellar-style sha256 line is excluded. -/
theorem claim_c3_filter_characterization :
    (∀ (x : String) (l : List Char),
      l ∈ (rustLinesL x.data).filter keepLineL ↔
        l ∈ rustLinesL x.data ∧
          (leadsWith descDeclL (trimRust l) = true ∨
           leadsWith homepageDeclL (trimRust l) = true ∨
           leadsWith urlDeclL (trimRust l) = true ∨
           leadsWith shaQuoteDeclL (trimRust l) = true)) ∧
    keepLineL exSha1S.data = true ∧ keepLineL exSha2S.data = false := by
  refine ⟨fun x l => ?_, by decide, by decide⟩
  rw [List.mem_filter]
  constructor
  · rintro ⟨h1, h2⟩
    refine ⟨h1, ?_⟩
    simpa [keepLineL, Bool.or_eq_true, or_assoc] using h2
  · rintro ⟨h1, h2⟩
    refine ⟨h1, ?_⟩
    simpa [keepLineL, Bool.or_eq_true, or_assoc] using h2

/-- C4: the derived identifier is the concatenation, in order and with no
separator, of the dash-separated stem segments with their first character
uppercased and the remainder unchanged (empty segments contributing
nothing); `a2ps` derives `A2ps` and `lib-png` derives `LibPng`. -/
theorem claim_c4_identifier_derivation :
    (∀ stem : String, classNameOfL stem.data =
      ((splitOnC dashC stem.data).map (fun seg =>
        match seg with
        | [] => ([] : List Char)
        | c :: rest => c.toUpper :: rest)).flatten) ∧
    classNameOf exStemA2ps = exClassA2ps ∧
    classNameOf exStemLibPng = exClassLibPng := by
  refine ⟨fun stem => ?_, by decide, by decide⟩
  rw [classNameOfL]
  have hf : capitalizePart = fun seg : List Char =>
      match seg with
      | [] => ([] : List Char)
      | c :: rest => c.toUpper :: rest := by
    funext seg
    cases seg <;> rfl
  rw [hf]

/-- C5 (code bug): the pre-check concatenation is empty exactly when every
dash-separated segment of the stem is empty, as the claim states; but at
such a stem the code does not return an `InvalidIdentifier` error to the
caller — it panics with the class-name message (the all-dash stem shown
here panics before the file is even read). -/
theorem claim_c5_empty_identifier_panics :
    (∀ stem : String,
      (classNameOfL stem.data = [] ↔
        ∀ p ∈ splitOnC dashC stem.data, p = [])) ∧
    (∀ (file : Except String String) (st : RubyState),
      parse_formula (some dashOnlyStem) true file st =
        (ParseOutcome.panicked panicClassMsg, st)) := by
  constructor
  · intro stem
    rw [classNameOfL, List.flatten_eq_nil_iff]
    constructor
    · intro h p hp
      exact capitalizePart_eq_nil_iff.mp
        (h (capitalizePart p) (List.mem_map.mpr ⟨p, hp, rfl⟩))
    · intro h x hx
      obtain ⟨p, hp, rfl⟩ := List.mem_map.mp hx
      exact capitalizePart_eq_nil_iff.mpr (h p hp)
  · intro file st
    rw [parse_formula, if_pos (by decide)]

/-- C6 (code bug): on a read failure `parse_formula` does not return an
`IoError` to its caller — the `.expect` on the read panics with the
read message, whatever the I/O error and incoming interpreter state. -/
theorem claim_c6_unreadable_file_panics :
    ∀ (e : String) (st : RubyState),
    parse_formula (some exStemA2ps) true (Except.error e) st =
      (ParseOutcome.panicked panicReadMsg, st) := by
  intro e st
  rfl

/-- C7 counterexample: the metadata filter is not idempotent — on the
source `desc a` CR CR LF `desc b`, the first pass keeps a retained line
ending in a carriage return, and the second pass strips that carriage
return, changing the output. -/
theorem claim_c7_counterexample :
    filterMetadata (filterMetadata crExampleS) ≠ filterMetadata crExampleS := by
  decide

/-- C7 amended: the metadata filter is idempotent on every source text
containing no carriage return character (a retained line that ends in a
carriage return — possible only via a CR CR LF sequence — is altered by
re-filtering, which is the only failure mode). -/
theorem claim_c7_idempotent_no_cr :
    ∀ x : String, crC ∉ x.data →
    filterMetadata (filterMetadata x) = filterMetadata x :=
  fun _ hx => congrArg String.mk (filterMetadataL_idem hx)

/-- Witness for the amended C7 on a CR-free source. -/
theorem claim_c7_idempotent_no_cr_witness :
    crC ∉ crFreeExampleS.data ∧
    filterMetadata (filterMetadata crFreeExampleS) =
      filterMetadata crFreeExampleS :=
  ⟨by decide, claim_c7_idempotent_no_cr crFreeExampleS (by decide)⟩

/-- C8: two sequential parses whose stems derive the same identifier but
whose contents differ each return exactly the outcome determined by their
own file content — the outcome of each call equals the outcome of the
same call run from an empty capture store, because the scaffold resets
the store at the start of every evaluation. -/
theorem claim_c8_no_cross_contamination :
    ∀ (s1 s2 c1 c2 : String) (st : RubyState),
    classNameOf s1 = classNameOf s2 → c1 ≠ c2 →
    (parse_formula (some s1) true (Except.ok c1) st).1 =
      (parse_formula (some s1) true (Except.ok c1) []).1 ∧
    (parse_formula (some s2) true (Except.ok c2)
        (parse_formula (some s1) true (Except.ok c1) st).2).1 =
      (parse_formula (some s2) true (Except.ok c2) []).1 :=
  fun s1 s2 c1 c2 st _ _ =>
    ⟨parse_fst_state_independent (some s1) true (Except.ok c1) st [],
     parse_fst_state_independent (some s2) true (Except.ok c2)
       (parse_formula (some s1) true (Except.ok c1) st).2 []⟩

/-- Witness for C8: stems `lib-png` and `Lib-png` both derive `LibPng`,
the contents differ, and the initial store is poisoned with a `LibPng`
entry. -/
theorem claim_c8_no_cross_contamination_witness :
    classNameOf exStemLibPng = classNameOf exStemLibPng2 ∧
    exC8c1S ≠ exC8c2S ∧
    ((parse_formula (some exStemLibPng) true (Except.ok exC8c1S)
        exPoisonState).1 =
      (parse_formula (some exStemLibPng) true (Except.ok exC8c1S) []).1 ∧
     (parse_formula (some exStemLibPng2) true (Except.ok exC8c2S)
        (parse_formula (some exStemLibPng) true (Except.ok exC8c1S)
          exPoisonState).2).1 =
      (parse_formula (some exStemLibPng2) true (Except.ok exC8c2S) []).1) :=
  ⟨by decide, by decide,
   claim_c8_no_cross_contamination exStemLibPng exStemLibPng2 exC8c1S
     exC8c2S exPoisonState (by decide) (by decide)⟩

/-- C10: a path with no extractable stem (or a non-UTF-8 stem) makes the
stem the empty string, and the call fails at identifier derivation —
the same panic, whatever the Ruby state, the file content or its
readability, so the file is never consulted and no `Ok` is returned. -/
theorem claim_c10_missing_stem_panics :
    ∀ (ri : Bool) (file : Except String String) (st : RubyState),
    parse_formula none ri file st =
      (ParseOutcome.panicked panicClassMsg, st) := by
  intro ri file st
  rfl
